import Mathlib

/-!
Verification of the crowbar ODOL decoder against its specification.

The Rust sources (`src/main.rs`, `src/io.rs`) are shallowly embedded here:
byte streams become a `List Nat` of byte values together with an explicit
cursor position, fallible reads become `Option`/sum-type outcomes, and the
external minilzo decompressor is abstracted as a function parameter
returning one of its observable outcome classes.  Rust panics
(`assert_eq!`, indexing out of bounds, `unwrap`) are modelled as a
distinguished `panic` outcome, separate from recoverable `Err` results.
-/

namespace Crowbar

/-! ## Adaptive-length decompression (`read_compressed_array`, main.rs:35-91) -/

/-- Observable outcomes of `minilzo::decompress(&buffer, output_size)` as
matched by the source: success with the decompressed bytes, the
`InputOverrun` ("more input needed") error, the `InputNotConsumed`
("input not fully consumed") error, and any other library error. -/
inductive LzoResult where
  | ok (bytes : List Nat)
  | inputOverrun
  | inputNotConsumed
  | otherErr
deriving DecidableEq, Repr

/-- A decompressor: takes the candidate compressed buffer and the expected
output size, produces an `LzoResult`.  `minilzo::decompress` is external
library code, so it is abstracted as a parameter of the embedding. -/
def Decomp : Type := List Nat → Nat → LzoResult

/-- Error kinds surfaced by `read_compressed_array` as recoverable
`Err(..)` values.  `ambiguousLength` models the
`Error::new(ErrorKind::Other, "")` returned when the bisection interval
closes (the spec names this kind AmbiguousLength); `ioEof` models a
propagated `UnexpectedEof`; `lzoOther` models the wrapped non-feedback
minilzo errors.  `unsupportedCompression` is modelled from the spec: the
spec's error taxonomy (§7) names this kind for an unrecognised marker
byte; the source has no corresponding value (it asserts instead), and the
constructor exists only so that the spec's claim about it can be stated. -/
inductive RcError where
  | ambiguousLength
  | ioEof
  | lzoOther
  | unsupportedCompression
deriving DecidableEq, Repr

/-- Result of `read_compressed_array`: success carries the produced bytes
and the final stream position; `err` is a recoverable `Err(..)` return;
`panic` models an `assert_eq!` failure aborting the process. -/
inductive RcOutcome where
  | ok (bytes : List Nat) (pos : Nat)
  | err (e : RcError)
  | panic
deriving DecidableEq, Repr

/-- The `loop { .. }` of `read_compressed_array` (main.rs:51-90), embedded
with a fuel parameter: each iteration either returns or strictly shrinks
`size_large - size_small`, so calling with fuel `size_large - size_small`
(as `readCompressedArray` does) never reaches the fuel-exhausted branch
with an open interval — at fuel 0 the interval width is 0 ≤ 1 and the loop
would return the same `ambiguousLength` error.
`fp` is the saved stream position of the block start; a candidate read of
`size` bytes succeeds exactly when `fp + size ≤ data.length`, otherwise
`read_exact` fails with `UnexpectedEof` and the source sets
`size_large = size`. -/
def bisectLoop (decomp : Decomp) (data : List Nat) (fp output_size : Nat) :
    Nat → Nat → Nat → RcOutcome
  | 0, _, _ => .err .ambiguousLength
  | fuel + 1, size_small, size_large =>
    if size_large < size_small ∨ size_large - size_small ≤ 1 then
      .err .ambiguousLength
    else
      let size := size_small + (size_large - size_small) / 2
      if data.length < fp + size then
        bisectLoop decomp data fp output_size fuel size_small size
      else
        match decomp ((data.drop fp).take size) output_size with
        | .ok decompressed => .ok decompressed (fp + size)
        | .inputOverrun => bisectLoop decomp data fp output_size fuel size size_large
        | .inputNotConsumed => bisectLoop decomp data fp output_size fuel size_small size
        | .otherErr => .err .lzoOther

/-- `read_compressed_array` (main.rs:35-91).  Reads the marker byte at
`pos`; marker 0 returns the next `output_size` bytes verbatim; marker 2
runs the bisection loop from the saved position `pos + 1` with
`size_small = 0`, `size_large = output_size`; any other marker fails the
`assert_eq!(comp_type, 2)`, i.e. panics. -/
def readCompressedArray (decomp : Decomp) (data : List Nat) (pos output_size : Nat) :
    RcOutcome :=
  match data[pos]? with
  | none => .err .ioEof
  | some comp_type =>
    if comp_type = 0 then
      if data.length < pos + 1 + output_size then .err .ioEof
      else .ok ((data.drop (pos + 1)).take output_size) (pos + 1 + output_size)
    else if comp_type = 2 then
      bisectLoop decomp data (pos + 1) output_size output_size 0 output_size
    else .panic

/-- Modelled from the spec: the bisection search of §4.2 exactly as the
spec words it — interval `[low = 0, high = outputSize)`,
`mid = low + (high - low) / 2`, re-seek to the fixed block start and read
`mid` bytes each attempt, premature end-of-stream sets `high = mid`,
"more input needed" sets `low = mid`, "input not fully consumed" sets
`high = mid`, success returns the decoded bytes with the stream past the
`mid` consumed bytes, and `high - low ≤ 1` fails with AmbiguousLength.
The spec does not discuss decoder outcomes outside the three feedback
signals; those are modelled as a decoder failure.  Fuel as in
`bisectLoop`. -/
def bisectionGo (decomp : Decomp) (data : List Nat) (blockStart outputSize : Nat) :
    Nat → Nat → Nat → RcOutcome
  | 0, _, _ => .err .ambiguousLength
  | fuel + 1, low, high =>
    if high - low ≤ 1 then
      .err .ambiguousLength
    else
      let mid := low + (high - low) / 2
      if data.length < blockStart + mid then
        bisectionGo decomp data blockStart outputSize fuel low mid
      else
        match decomp ((data.drop blockStart).take mid) outputSize with
        | .ok decompressed => .ok decompressed (blockStart + mid)
        | .inputOverrun => bisectionGo decomp data blockStart outputSize fuel mid high
        | .inputNotConsumed => bisectionGo decomp data blockStart outputSize fuel low mid
        | .otherErr => .err .lzoOther

/-- Modelled from the spec: entry point of the §4.2 bisection over
`[low = 0, high = outputSize)` at a fixed block start. -/
def bisectionSearch (decomp : Decomp) (data : List Nat) (blockStart outputSize : Nat) :
    RcOutcome :=
  bisectionGo decomp data blockStart outputSize outputSize 0 outputSize

/-! ## UV dequantization (main.rs:592-603) -/

/-- Dequantization of one raw int16 UV component
(`((raw as i32 + 0x7fff) as f32) / ((2 * 0x7fff) as f32)` scaled into the
axis interval `[axisMin, axisMax]` by `u * (max - min) + min`).  The `f32`
arithmetic of the source is modelled by exact rational arithmetic. -/
def dequantUV (raw : Int) (axisMin axisMax : ℚ) : ℚ :=
  ((raw : ℚ) + 0x7fff) / (2 * 0x7fff) * (axisMax - axisMin) + axisMin

/-! ## `read_cstring` (io.rs:9-22) -/

/-- Error kinds modelled from the spec for NUL-terminated string reads:
§4.1 requires `Truncated` on end-of-stream before a terminator and
`InvalidText` on non-text bytes.  The source produces neither (it returns
the accumulated bytes on end-of-stream and panics on invalid UTF-8); the
constructors exist only so that the spec's claim can be stated. -/
inductive CsError where
  | truncated
  | invalidText
deriving DecidableEq, Repr

/-- Result of `read_cstring`: success carries the accumulated bytes and
the new stream position; `panic` models the `.unwrap()` on
`String::from_utf8` aborting on invalid UTF-8; `err` is modelled from the
spec (see `CsError`). -/
inductive CsOutcome where
  | ok (bytes : List Nat) (pos : Nat)
  | err (e : CsError)
  | panic
deriving DecidableEq, Repr

/-- Is `b` a UTF-8 continuation byte (`0x80..=0xBF`)? -/
def utf8Cont (b : Nat) : Bool := 0x80 ≤ b && b ≤ 0xBF

/-- UTF-8 validity of a byte sequence, as checked by Rust's
`String::from_utf8`: ASCII, C2–DF + 1 continuation, E0 A0–BF + 1,
E1–EC/EE–EF + 2, ED 80–9F + 1, F0 90–BF + 2, F1–F3 + 3, F4 80–8F + 2. -/
def utf8Valid : List Nat → Bool
  | [] => true
  | b :: l =>
    if b ≤ 0x7F then utf8Valid l
    else
      match l with
      | [] => false
      | c1 :: l1 =>
        if 0xC2 ≤ b && b ≤ 0xDF then utf8Cont c1 && utf8Valid l1
        else
          match l1 with
          | [] => false
          | c2 :: l2 =>
            if b = 0xE0 then (0xA0 ≤ c1 && c1 ≤ 0xBF) && utf8Cont c2 && utf8Valid l2
            else if (0xE1 ≤ b && b ≤ 0xEC) || b = 0xEE || b = 0xEF then
              utf8Cont c1 && utf8Cont c2 && utf8Valid l2
            else if b = 0xED then (0x80 ≤ c1 && c1 ≤ 0x9F) && utf8Cont c2 && utf8Valid l2
            else
              match l2 with
              | [] => false
              | c3 :: l3 =>
                if b = 0xF0 then
                  (0x90 ≤ c1 && c1 ≤ 0xBF) && utf8Cont c2 && utf8Cont c3 && utf8Valid l3
                else if 0xF1 ≤ b && b ≤ 0xF3 then
                  utf8Cont c1 && utf8Cont c2 && utf8Cont c3 && utf8Valid l3
                else if b = 0xF4 then
                  (0x80 ≤ c1 && c1 ≤ 0x8F) && utf8Cont c2 && utf8Cont c3 && utf8Valid l3
                else false

/-- The byte-accumulation loop of `read_cstring` (io.rs:11-19): walk the
remaining bytes, stop at the first zero byte (consuming it) or at
end-of-stream.  Returns the accumulated bytes and the number of bytes
consumed from the stream. -/
def csLoop : List Nat → List Nat × Nat
  | [] => ([], 0)
  | b :: rest =>
    if b = 0 then ([], 1)
    else
      let (acc, n) := csLoop rest
      (b :: acc, n + 1)

/-- `read_cstring` (io.rs:9-22) on a stream at position `pos`: accumulate
bytes until a zero byte or end-of-stream, then
`String::from_utf8(bytes).unwrap()` — success when the bytes are valid
UTF-8, a panic otherwise. -/
def readCString (data : List Nat) (pos : Nat) : CsOutcome :=
  let r := csLoop (data.drop pos)
  if utf8Valid r.1 then .ok r.1 (pos + r.2) else .panic

/-! ## Faces and section-to-face assignment (main.rs:437-495) -/

/-- One decoded face as held in the `faces` vector of `read_odol`
(main.rs:437): the tuple `(Vec<u32>, usize, usize)` of point indices,
texture index and material index.  Texture and material start at
`0xffffff` (main.rs:445); the material index is the `i32` read from the
file cast `as usize` by the caller. -/
structure FaceRec where
  verts : List Nat
  tex : Nat
  mat : Nat
deriving DecidableEq, Repr

/-- The `i32 as usize` cast used for the material index (main.rs:490):
two's-complement reinterpretation modulo 2^64. -/
def usizeOfI32 (m : Int) : Nat := (m % 2 ^ 64).toNat

/-- The per-section assignment loop over the face vector
(main.rs:482-494): `face_index` is a cumulative byte-stride counter; the
loop breaks as soon as `face_index > face_to`, assigns the section's
texture and material when `face_index >= face_from`, and advances by
`face.0.len() * 4 + 1` per face. -/
def applySection (face_from face_to tex mat : Nat) :
    Nat → List FaceRec → List FaceRec
  | _, [] => []
  | face_index, f :: rest =>
    if face_to < face_index then f :: rest
    else
      (if face_from ≤ face_index then { f with tex := tex, mat := mat } else f) ::
        applySection face_from face_to tex mat (face_index + f.verts.length * 4 + 1) rest

/-- All sections applied in file order (the enclosing `for` of
main.rs:453-495, restricted to its effect on the face vector); each
section is `(face_from, face_to, texture_index, material_index as usize)`. -/
def applySections (secs : List (Nat × Nat × Nat × Nat)) (faces : List FaceRec) :
    List FaceRec :=
  secs.foldl (fun fs sec => applySection sec.1 sec.2.1 sec.2.2.1 sec.2.2.2 0 fs) faces

/-- The cumulative byte-stride offset of face `i`: the sum of
`vertexCount * 4 + 1` over the faces before it. -/
def strideOffset (faces : List FaceRec) (i : Nat) : Nat :=
  ((faces.take i).map (fun f => f.verts.length * 4 + 1)).sum

/-- Modelled from the spec: the "plain per-face-counter assignment" the
spec contrasts against — the same loop but with the counter advancing by
1 per face. -/
def applySectionPlain (face_from face_to tex mat : Nat) :
    Nat → List FaceRec → List FaceRec
  | _, [] => []
  | face_index, f :: rest =>
    if face_to < face_index then f :: rest
    else
      (if face_from ≤ face_index then { f with tex := tex, mat := mat } else f) ::
        applySectionPlain face_from face_to tex mat (face_index + 1) rest

/-- Modelled from the spec: all sections applied with the plain per-face
counter. -/
def applySectionsPlain (secs : List (Nat × Nat × Nat × Nat)) (faces : List FaceRec) :
    List FaceRec :=
  secs.foldl (fun fs sec => applySectionPlain sec.1 sec.2.1 sec.2.2.1 sec.2.2.2 0 fs) faces

/-! ## Face assembly (main.rs:664-677) -/

/-- One assembled output vertex (`armake2::p3d::Vertex`): point index,
normal index (mirroring the point index), and the UV pair. -/
structure OutVertex where
  point_index : Nat
  normal_index : Nat
  uv : ℚ × ℚ
deriving DecidableEq

/-- One assembled output face (`armake2::p3d::Face`): reversed vertex
list, flag byte, texture path, material path. -/
structure OutFace where
  vertices : List OutVertex
  flags : Nat
  texture : String
  material : String
deriving DecidableEq

/-- The vertex-building closure of main.rs:665-669 mapped over a list of
point indices: each index is resolved against the UV array by plain
indexing (`uvs[*i as usize]` — out of range panics, modelled as `none`). -/
def buildVertices (uvs : List (ℚ × ℚ)) : List Nat → Option (List OutVertex)
  | [] => some []
  | i :: rest =>
    match uvs[i]? with
    | none => none
    | some uv =>
      match buildVertices uvs rest with
      | none => none
      | some vs => some (OutVertex.mk i i uv :: vs)

/-- Assembly of one output face (main.rs:664-676): vertices are the
decoded point indices reversed, each resolved against the UV array; the
texture path is `textures.get(t)` cloned with `String::new()` when the
index is unresolved, and likewise the material path. -/
def assembleFace (textures materials : List String) (uvs : List (ℚ × ℚ))
    (f : FaceRec) : Option OutFace :=
  match buildVertices uvs f.verts.reverse with
  | none => none
  | some vertices =>
    some { vertices := vertices, flags := 0,
           texture := (textures[f.tex]?.map id).getD "",
           material := (materials[f.mat]?.map id).getD "" }

/-! ## Selection tag expansion (main.rs:679-716) -/

/-- Rust `vec[i] = v`: in-bounds assignment, panic (modelled `none`)
otherwise. -/
def setChecked (l : List Nat) (i v : Nat) : Option (List Nat) :=
  if i < l.length then some (l.set i v) else none

/-- `for i in selfaces { mlod_faces[i as usize] = 0x1; }` (main.rs:692-694). -/
def markFacesLoop : List Nat → List Nat → Option (List Nat)
  | [], mf => some mf
  | i :: rest, mf =>
    match setChecked mf i 1 with
    | none => none
    | some mf' => markFacesLoop rest mf'

/-- `for j in faces[i].0.iter() { mlod_verts[*j as usize] = 0x1; }`
(main.rs:704-706). -/
def markPoints : List Nat → List Nat → Option (List Nat)
  | [], mv => some mv
  | j :: rest, mv =>
    match setChecked mv j 1 with
    | none => none
    | some mv' => markPoints rest mv'

/-- The inner loop over one section's face range
`for i in section.0..section.1` (main.rs:698-707): break as soon as
`i >= num_faces`, otherwise mark the face byte and every point of
`faces[i]` (indexing panics modelled as `none`).  The range is passed as
the explicit index list `List.range' from (to - from)`. -/
def markSectionFaces (faces : List FaceRec) (num_faces : Nat) :
    List Nat → List Nat → List Nat → Option (List Nat × List Nat)
  | [], mv, mf => some (mv, mf)
  | i :: rest, mv, mf =>
    if num_faces ≤ i then some (mv, mf)
    else
      match setChecked mf i 1 with
      | none => none
      | some mf' =>
        match faces[i]? with
        | none => none
        | some fr =>
          match markPoints fr.verts mv with
          | none => none
          | some mv' => markSectionFaces faces num_faces rest mv' mf'

/-- The outer loop over the selection's listed sections
`for s in selsections` (main.rs:696-708): `sections[s as usize]` (panic
modelled as `none`) then the inner range loop. -/
def markSections (secs : List (Nat × Nat)) (faces : List FaceRec) (num_faces : Nat) :
    List Nat → List Nat → List Nat → Option (List Nat × List Nat)
  | [], mv, mf => some (mv, mf)
  | s :: rest, mv, mf =>
    match secs[s]? with
    | none => none
    | some sec =>
      match markSectionFaces faces num_faces (List.range' sec.1 (sec.2 - sec.1)) mv mf with
      | none => none
      | some (mv', mf') => markSections secs faces num_faces rest mv' mf'

/-- `for (i, w) in selverts.iter().zip(selvertweights.iter())
{ mlod_verts[*i as usize] = *w; }` (main.rs:710-712). -/
def applyWeights : List (Nat × Nat) → List Nat → Option (List Nat)
  | [], mv => some mv
  | (i, w) :: rest, mv =>
    match setChecked mv i w with
    | none => none
    | some mv' => applyWeights rest mv'

/-- The weight-array defaulting of main.rs:680-683: an empty weight
array becomes one `0x1` entry per listed vertex. -/
def defaultWeights (selverts selvertweights : List Nat) : List Nat :=
  if selvertweights.length = 0 then List.replicate selverts.length 1
  else selvertweights

/-- Expansion of one named selection into its tag byte array
(main.rs:679-715): default the weight array to all `0x1` when empty,
assert it matches the vertex list in length (failure panics, modelled as
`none`), zero-initialise the point and face tag blocks, mark the
directly-listed faces, mark each listed section's face range together
with the points of those faces, overwrite the directly-listed vertices'
point bytes with their weights, and return the point block followed by
the face block. -/
def expandSelection (num_points num_faces : Nat) (secs : List (Nat × Nat))
    (faces : List FaceRec) (selfaces selsections selverts selvertweights : List Nat) :
    Option (List Nat) :=
  let weights := defaultWeights selverts selvertweights
  if selverts.length = weights.length then
    match markFacesLoop selfaces (List.replicate num_faces 0) with
    | none => none
    | some mf =>
      match markSections secs faces num_faces selsections
          (List.replicate num_points 0) mf with
      | none => none
      | some (mv, mf') =>
        match applyWeights (selverts.zip weights) mv with
        | none => none
        | some mv' => some (mv' ++ mf')
  else none

/-- The weight the loop of main.rs:710-712 leaves at point `p`: the last
`(i, w)` pair of the zipped list with `i = p`, if any (later writes win). -/
def lastWeight : List (Nat × Nat) → Nat → Option Nat
  | [], _ => none
  | (i, w) :: rest, p =>
    match lastWeight rest p with
    | some w' => some w'
    | none => if p = i then some w else none

/-- Is face `k` inside the index list `idxs` and below the face count? -/
def rangeFace (idxs : List Nat) (num_faces k : Nat) : Bool :=
  idxs.contains k && k < num_faces

/-- Does the face at index `i` (when it exists) reference point `p`? -/
def faceHasPoint (faces : List FaceRec) (i p : Nat) : Bool :=
  match faces[i]? with
  | some fr => fr.verts.contains p
  | none => false

/-- Is point `p` referenced by some face of the index list `idxs` that is
below the face count? -/
def rangePoint (faces : List FaceRec) (idxs : List Nat) (num_faces p : Nat) : Bool :=
  idxs.any fun i => i < num_faces && faceHasPoint faces i p

/-- Does section number `s` (when it exists) cover face `k`? -/
def secFace (secs : List (Nat × Nat)) (num_faces k s : Nat) : Bool :=
  match secs[s]? with
  | some sec => rangeFace (List.range' sec.1 (sec.2 - sec.1)) num_faces k
  | none => false

/-- Does some listed section's face range cover face `k` (below the face
count)? -/
def coveredFaces (secs : List (Nat × Nat)) (selsections : List Nat)
    (num_faces k : Nat) : Bool :=
  selsections.any (secFace secs num_faces k)

/-- Does section number `s` (when it exists) reference point `p` through
one of its in-range faces? -/
def secPoint (secs : List (Nat × Nat)) (faces : List FaceRec)
    (num_faces p s : Nat) : Bool :=
  match secs[s]? with
  | some sec => rangePoint faces (List.range' sec.1 (sec.2 - sec.1)) num_faces p
  | none => false

/-- Is point `p` referenced by some face (below the face count) inside
some listed section's range? -/
def coveredPoints (secs : List (Nat × Nat)) (faces : List FaceRec)
    (selsections : List Nat) (num_faces p : Nat) : Bool :=
  selsections.any (secPoint secs faces num_faces p)

/-- Declarative description of the tag array `expandSelection` builds
(the amended form of the spec's description): a point byte carries the
directly-listed vertex's weight when the point is directly listed (last
write wins), else 1 when a face of a listed section's range references
it, else 0; a face byte is 1 exactly when the face is directly listed or
inside a listed section's range, else 0.  Directly-listed faces mark only
their face byte, not their points. -/
def expandSelectionSpec (num_points num_faces : Nat) (secs : List (Nat × Nat))
    (faces : List FaceRec) (selfaces selsections selverts selvertweights : List Nat) :
    List Nat :=
  let weights := defaultWeights selverts selvertweights
  ((List.range num_points).map fun p =>
    match lastWeight (selverts.zip weights) p with
    | some w => w
    | none => if coveredPoints secs faces selsections num_faces p then 1 else 0) ++
  ((List.range num_faces).map fun k =>
    if selfaces.contains k || coveredFaces secs selsections num_faces k then 1 else 0)

/-- Modelled from the spec: the tag array exactly as the original claim
describes it — every entry defaults to 0; each directly-listed vertex's
point byte is set to its supplied weight; then the point byte of every
point referenced by a directly-listed face, and of every point referenced
by any face inside a listed section's range, is marked; and the face byte
is 1 for every directly-listed face and every face inside a listed
section's range. -/
def expandSelectionClaimed (num_points num_faces : Nat) (secs : List (Nat × Nat))
    (faces : List FaceRec) (selfaces selsections selverts selvertweights : List Nat) :
    List Nat :=
  let weights := defaultWeights selverts selvertweights
  ((List.range num_points).map fun p =>
    if (selfaces.any fun f => faceHasPoint faces f p) ||
        coveredPoints secs faces selsections num_faces p then 1
    else
      match lastWeight (selverts.zip weights) p with
      | some w => w
      | none => 0) ++
  ((List.range num_faces).map fun k =>
    if selfaces.contains k || coveredFaces secs selsections num_faces k then 1 else 0)

/-! ## Helper lemmas -/

/-- The source's loop and the spec's bisection agree: the only textual
difference is the guard `size_large < size_small ∨ size_large - size_small ≤ 1`
versus `high - low ≤ 1`, and the two are equivalent over `Nat`. -/
theorem bisectLoop_eq_bisectionGo (decomp : Decomp) (data : List Nat) (fp n : Nat) :
    ∀ (fuel low high : Nat),
      bisectLoop decomp data fp n fuel low high =
        bisectionGo decomp data fp n fuel low high := by
  intro fuel
  induction fuel with
  | zero => intro low high; rfl
  | succ fuel ih =>
    intro low high
    by_cases hc : high - low ≤ 1
    · have hc' : high < low ∨ high - low ≤ 1 := Or.inr hc
      simp only [bisectLoop, bisectionGo, if_pos hc, if_pos hc']
    · have hc' : ¬(high < low ∨ high - low ≤ 1) := by omega
      simp only [bisectLoop, bisectionGo, if_neg hc, if_neg hc']
      by_cases hr : data.length < fp + (low + (high - low) / 2)
      · simp only [if_pos hr, ih]
      · simp only [if_neg hr]
        cases decomp ((data.drop fp).take (low + (high - low) / 2)) n <;> simp [ih]

/-! ## Claim theorems -/

/-- C1: for every stream positioned at a compressed block with marker
byte 2 and every requested output size, `read_compressed_array` behaves
exactly as the spec's bisection over `[low = 0, high = outputSize)` from
the fixed block start `pos + 1`: each attempt re-reads `mid` bytes from
the block start, premature end-of-stream sets `high = mid`, "more input
needed" sets `low = mid`, "input not fully consumed" sets `high = mid`,
success returns the decoded bytes with the stream at `pos + 1 + mid`, and
a closed interval fails with AmbiguousLength
(`bisectionSearch` is that spec description verbatim). -/
theorem c1_marker2_bisection (decomp : Decomp) (data : List Nat) (pos n : Nat)
    (hmark : data[pos]? = some 2) :
    readCompressedArray decomp data pos n = bisectionSearch decomp data (pos + 1) n := by
  simp only [readCompressedArray, hmark, bisectionSearch]
  norm_num [bisectLoop_eq_bisectionGo]

/-- A concrete decompressor for exercising the bisection: it succeeds on
candidate buffers of length exactly 3, reports "more input needed" on
shorter ones and "input not fully consumed" on longer ones. -/
def bisectDemoDecomp : Decomp := fun buf n =>
  if buf.length = 3 then .ok (List.replicate n 7)
  else if buf.length < 3 then .inputOverrun
  else .inputNotConsumed

/-- A concrete compressed block: marker byte 2 followed by payload. -/
def bisectDemoData : List Nat := [2, 9, 9, 9, 9, 9]

theorem c1_marker2_bisection_witness :
    readCompressedArray bisectDemoDecomp bisectDemoData 0 4 =
      bisectionSearch bisectDemoDecomp bisectDemoData 1 4 ∧
    readCompressedArray bisectDemoDecomp bisectDemoData 0 4 =
      .ok [7, 7, 7, 7] 4 :=
  ⟨c1_marker2_bisection bisectDemoDecomp bisectDemoData 0 4 rfl, by decide⟩

/-- C5: a stored block (marker byte 0) of declared size `S` is returned
verbatim — the next `S` input bytes — with the stream advanced exactly
`S` bytes past the marker byte, for every decompressor (the decompressor
parameter is never consulted, i.e. zero decompression attempts). -/
theorem c5_stored_verbatim (decomp : Decomp) (data : List Nat) (pos S : Nat)
    (hmark : data[pos]? = some 0) (hlen : pos + 1 + S ≤ data.length) :
    readCompressedArray decomp data pos S =
      .ok ((data.drop (pos + 1)).take S) (pos + 1 + S) := by
  simp only [readCompressedArray, hmark]
  rw [if_pos trivial, if_neg (by omega)]

theorem c5_stored_verbatim_witness :
    readCompressedArray bisectDemoDecomp [0, 10, 11, 12, 13] 0 3 =
      .ok [10, 11, 12] 4 :=
  c5_stored_verbatim bisectDemoDecomp [0, 10, 11, 12, 13] 0 3 rfl (by decide)

/-- C6: each raw int16 UV component dequantizes as
`((raw + 32767) / 65534) * (axisMax - axisMin) + axisMin`; the raw value
−32767 maps exactly to the axis minimum and 32767 exactly to the axis
maximum (the `f32` arithmetic is modelled by exact rationals, so the
endpoint identities hold with no rounding term). -/
theorem c6_dequantization (raw : Int) (amin amax : ℚ) :
    dequantUV raw amin amax = ((raw : ℚ) + 32767) / 65534 * (amax - amin) + amin ∧
    dequantUV (-32767) amin amax = amin ∧
    dequantUV 32767 amin amax = amax := by
  refine ⟨by norm_num [dequantUV], by norm_num [dequantUV], ?_⟩
  have h : ((32767 : Int) : ℚ) + 0x7fff = 2 * 0x7fff := by norm_num
  rw [dequantUV, h, div_self (by norm_num)]
  ring

/-- C7 counterexample: on a block whose marker byte is 1 (neither 0 nor
2), `read_compressed_array` panics — it fails the
`assert_eq!(comp_type, 2)` and aborts the process — rather than
returning the typed, recoverable UnsupportedCompression error the claim
asserts. -/
theorem c7_counterexample :
    readCompressedArray bisectDemoDecomp [1, 10] 0 3 = .panic ∧
      RcOutcome.panic ≠ .err .unsupportedCompression := by
  exact ⟨rfl, by decide⟩

/-- C7 amended: if the marker byte of a compressed block is neither 0
nor 2, `read_compressed_array` aborts via a failed assertion (a panic,
terminating the process), not via a typed, recoverable error result. -/
theorem c7_unknown_marker_panics (decomp : Decomp) (data : List Nat) (pos n b : Nat)
    (hmark : data[pos]? = some b) (h0 : b ≠ 0) (h2 : b ≠ 2) :
    readCompressedArray decomp data pos n = .panic := by
  simp [readCompressedArray, hmark, h0, h2]

theorem c7_unknown_marker_panics_witness :
    readCompressedArray bisectDemoDecomp [3, 10] 0 5 = .panic :=
  c7_unknown_marker_panics bisectDemoDecomp [3, 10] 0 5 3 rfl (by decide) (by decide)

/-- The accumulation loop of `read_cstring` takes the longest zero-free
prefix and consumes one extra byte exactly when a zero byte exists. -/
theorem csLoop_characterization (l : List Nat) :
    csLoop l = (l.takeWhile (fun b => b != 0),
      (l.takeWhile (fun b => b != 0)).length +
        if l.any (fun b => b == 0) then 1 else 0) := by
  induction l with
  | nil => rfl
  | cons b rest ih =>
    by_cases hb : b = 0
    · subst hb; simp [csLoop, List.takeWhile_cons]
    · have hb' : (b == 0) = false := beq_eq_false_iff_ne.mpr hb
      simp only [csLoop, if_neg hb, ih, List.takeWhile_cons, List.any_cons,
        bne_iff_ne, ne_eq, hb, not_false_eq_true, if_true, beq_iff_eq,
        Bool.false_or, List.length_cons, Prod.mk.injEq]
      simp only [hb', Bool.false_or]
      rw [if_neg not_false, Prod.mk.injEq]
      exact ⟨rfl, by split <;> omega⟩

/-- C8 counterexample: on the one-byte stream `[0x41]` (no NUL
terminator before end-of-stream) `read_cstring` returns the accumulated
bytes as a success, not the Truncated error the claim asserts; and on
`[0xFF]` (not valid UTF-8) it panics via `.unwrap()`, not the
recoverable InvalidText error the claim asserts. -/
theorem c8_counterexample :
    (readCString [0x41] 0 = .ok [0x41] 1 ∧
      CsOutcome.ok [0x41] 1 ≠ .err .truncated) ∧
    (readCString [0xFF] 0 = .panic ∧
      CsOutcome.panic ≠ .err .invalidText) := by
  exact ⟨⟨rfl, by decide⟩, ⟨rfl, by decide⟩⟩

/-- C8 amended: `read_cstring` accumulates bytes until a zero byte or
end-of-stream.  Reaching end-of-stream before a NUL terminator is not an
error: the accumulated bytes are returned as a success.  Accumulated
bytes that are not valid UTF-8 cause a panic (an abort via `.unwrap()`),
not a recoverable error.  Concretely, the result is the longest zero-free
byte run from the cursor (successful exactly when it is valid UTF-8),
with the cursor past that run and past the terminator when one exists. -/
theorem c8_read_cstring_amended (data : List Nat) (pos : Nat) :
    readCString data pos =
      (if utf8Valid ((data.drop pos).takeWhile (fun b => b != 0)) then
        CsOutcome.ok ((data.drop pos).takeWhile (fun b => b != 0))
          (pos + ((data.drop pos).takeWhile (fun b => b != 0)).length +
            if (data.drop pos).any (fun b => b == 0) then 1 else 0)
      else .panic) := by
  simp only [readCString, csLoop_characterization]
  split
  · rw [Nat.add_assoc]
  · rfl

/-! ## C2: section-to-face assignment -/

theorem strideOffset_nil (i : Nat) : strideOffset [] i = 0 := by
  simp [strideOffset]

theorem strideOffset_zero (faces : List FaceRec) : strideOffset faces 0 = 0 := by
  simp [strideOffset]

theorem strideOffset_cons_succ (f : FaceRec) (rest : List FaceRec) (j : Nat) :
    strideOffset (f :: rest) (j + 1) =
      (f.verts.length * 4 + 1) + strideOffset rest j := by
  simp [strideOffset, List.take_succ_cons]

/-- Pointwise effect of one section's assignment pass started at counter
value `k`: face `i` receives the section's texture and material exactly
when `k` plus its cumulative stride offset lies in `[face_from, face_to]`. -/
theorem applySection_getElem? (face_from face_to tex mat : Nat) :
    ∀ (faces : List FaceRec) (k i : Nat),
      (applySection face_from face_to tex mat k faces)[i]? =
        faces[i]?.map (fun f0 =>
          if face_from ≤ k + strideOffset faces i ∧ k + strideOffset faces i ≤ face_to
          then { f0 with tex := tex, mat := mat } else f0) := by
  intro faces
  induction faces with
  | nil => intro k i; simp [applySection]
  | cons f rest ih =>
    intro k i
    by_cases hbreak : face_to < k
    · rw [applySection, if_pos hbreak]
      cases i with
      | zero =>
        simp only [List.getElem?_cons_zero, Option.map_some', strideOffset_zero,
          Nat.add_zero]
        rw [if_neg (by omega)]
      | succ j =>
        simp only [List.getElem?_cons_succ]
        cases hj : rest[j]? with
        | none => rfl
        | some f0 =>
          simp only [Option.map_some']
          rw [if_neg (by omega)]
    · rw [applySection, if_neg hbreak]
      cases i with
      | zero =>
        simp only [List.getElem?_cons_zero, Option.map_some', strideOffset_zero,
          Nat.add_zero]
        by_cases hf : face_from ≤ k
        · rw [if_pos hf, if_pos (by omega)]
        · rw [if_neg hf, if_neg (by omega)]
      | succ j =>
        rw [List.getElem?_cons_succ, List.getElem?_cons_succ,
          ih (k + f.verts.length * 4 + 1) j]
        simp only [strideOffset_cons_succ,
          show k + (f.verts.length * 4 + 1 + strideOffset rest j) =
            k + f.verts.length * 4 + 1 + strideOffset rest j from by omega]

/-- The C2 fixture's faces: vertex counts `[4, 4, 3, 3, 3]`, texture and
material indices initialised to `0xffffff` as the decoder does. -/
def c2Faces : List FaceRec :=
  [⟨[0, 1, 2, 3], 0xffffff, 0xffffff⟩, ⟨[4, 5, 6, 7], 0xffffff, 0xffffff⟩,
   ⟨[8, 9, 10], 0xffffff, 0xffffff⟩, ⟨[11, 12, 13], 0xffffff, 0xffffff⟩,
   ⟨[14, 15, 16], 0xffffff, 0xffffff⟩]

/-- The C2 fixture's sections: `[(0, 2, tex = 5), (2, 5, tex = 7)]`. -/
def c2Secs : List (Nat × Nat × Nat × Nat) := [(0, 2, 5, 9), (2, 5, 7, 9)]

/-- C2: the section-to-face cursor is a cumulative byte-stride counter
advancing by `vertexCount * 4 + 1` per face, not by 1 per face: a face
receives a section's texture and material exactly when its cumulative
stride offset lies within the section's face range (first conjunct,
pointwise over every face vector and section).  On the fixture with
sections `[(0,2,tex=5),(2,5,tex=7)]` and vertex counts `[4,4,3,3,3]`,
only face 0 (stride offset 0) is assigned — texture list
`[5, 0xffffff, 0xffffff, 0xffffff, 0xffffff]` — which differs from the
plain per-face-counter assignment. -/
theorem c2_stride_assignment :
    (∀ (face_from face_to tex mat : Nat) (faces : List FaceRec) (i : Nat),
      (applySection face_from face_to tex mat 0 faces)[i]? =
        faces[i]?.map (fun f0 =>
          if face_from ≤ strideOffset faces i ∧ strideOffset faces i ≤ face_to
          then { f0 with tex := tex, mat := mat } else f0)) ∧
    (applySections c2Secs c2Faces).map FaceRec.tex =
      [5, 0xffffff, 0xffffff, 0xffffff, 0xffffff] ∧
    applySections c2Secs c2Faces ≠ applySectionsPlain c2Secs c2Faces := by
  refine ⟨?_, by decide, by decide⟩
  intro face_from face_to tex mat faces i
  simpa using applySection_getElem? face_from face_to tex mat faces 0 i

/-! ## C9: unresolved texture/material indices -/

/-- Resolving every vertex of a face against the UV array succeeds as
soon as every point index is in range. -/
theorem buildVertices_some (uvs : List (ℚ × ℚ)) :
    ∀ (l : List Nat), (∀ i ∈ l, i < uvs.length) →
      ∃ vs, buildVertices uvs l = some vs := by
  intro l
  induction l with
  | nil => exact fun _ => ⟨[], rfl⟩
  | cons i rest ih =>
    intro h
    have hi : i < uvs.length := h i (by simp)
    have huv : uvs[i]? = some uvs[i] := List.getElem?_eq_getElem hi
    obtain ⟨vs, hvs⟩ := ih (fun j hj => h j (by simp [hj]))
    exact ⟨OutVertex.mk i i uvs[i] :: vs, by simp [buildVertices, huv, hvs]⟩

/-- C9: face assembly always succeeds (whatever the texture and material
indices are — an unresolved index never fails the decode), and
independently: if the texture index is out of range of the decoded
texture list the face's texture path is the empty string, and likewise
if the material index is out of range the material path is the empty
string.  The two guarantees are separate implications, so each holds on
its own (e.g. a resolved texture alongside `material_index = -1` cast to
usize). -/
theorem c9_unresolved_indices_empty (textures materials : List String)
    (uvs : List (ℚ × ℚ)) (f : FaceRec)
    (hv : ∀ i ∈ f.verts, i < uvs.length) :
    ∃ out, assembleFace textures materials uvs f = some out ∧
      (textures.length ≤ f.tex → out.texture = "") ∧
      (materials.length ≤ f.mat → out.material = "") := by
  obtain ⟨vs, hvs⟩ := buildVertices_some uvs f.verts.reverse
    (fun i hi => hv i (List.mem_reverse.mp hi))
  refine ⟨{ vertices := vs, flags := 0,
            texture := (textures[f.tex]?.map id).getD "",
            material := (materials[f.mat]?.map id).getD "" }, ?_, ?_, ?_⟩
  · simp [assembleFace, hvs]
  · intro ht; simp [List.getElem?_eq_none ht]
  · intro hm; simp [List.getElem?_eq_none hm]

theorem c9_unresolved_indices_empty_witness :
    ∃ out, assembleFace ["a"] [] [((0 : ℚ), (0 : ℚ))]
        ⟨[0], 0, usizeOfI32 (-1)⟩ = some out ∧
      (List.length ["a"] ≤ 0 → out.texture = "") ∧
      (List.length ([] : List String) ≤ usizeOfI32 (-1) → out.material = "") :=
  c9_unresolved_indices_empty ["a"] [] [(0, 0)] ⟨[0], 0, usizeOfI32 (-1)⟩
    (by decide)

/-! ## C3/C4/C10: selection tag expansion lemmas -/

theorem setChecked_eq_some {l : List Nat} {i v : Nat} (h : i < l.length) :
    setChecked l i v = some (l.set i v) := if_pos h

theorem setChecked_length {l l' : List Nat} {i v : Nat}
    (h : setChecked l i v = some l') : l'.length = l.length := by
  unfold setChecked at h
  split at h
  · cases h; exact List.length_set l i v
  · cases h

theorem rangeFace_iff {idxs : List Nat} {nf k : Nat} :
    rangeFace idxs nf k = true ↔ k ∈ idxs ∧ k < nf := by
  simp [rangeFace, List.elem_iff]

theorem faceHasPoint_iff {faces : List FaceRec} {i p : Nat} :
    faceHasPoint faces i p = true ↔ ∃ fr, faces[i]? = some fr ∧ p ∈ fr.verts := by
  unfold faceHasPoint
  cases h : faces[i]? <;> simp [List.elem_iff]

theorem rangePoint_iff {faces : List FaceRec} {idxs : List Nat} {nf p : Nat} :
    rangePoint faces idxs nf p = true ↔
      ∃ i ∈ idxs, i < nf ∧ faceHasPoint faces i p = true := by
  simp [rangePoint, List.any_eq_true]

/-- Characterization of the direct-face marking loop: it succeeds when
every listed face index is in bounds, preserves the tag length, and sets
exactly the listed indices to 1. -/
theorem markFacesLoop_spec : ∀ (sf mf : List Nat), (∀ f ∈ sf, f < mf.length) →
    ∃ mf', markFacesLoop sf mf = some mf' ∧ mf'.length = mf.length ∧
      ∀ k, mf'[k]? = if k ∈ sf then some 1 else mf[k]? := by
  intro sf
  induction sf with
  | nil =>
    intro mf _
    exact ⟨mf, rfl, rfl, fun k => by simp⟩
  | cons i rest ih =>
    intro mf h
    have hi : i < mf.length := h i (List.mem_cons_self i rest)
    obtain ⟨mf', heq, hlen, hget⟩ := ih (mf.set i 1)
      (fun f hf => by rw [List.length_set]; exact h f (List.mem_cons_of_mem i hf))
    refine ⟨mf', ?_, by rw [hlen, List.length_set], ?_⟩
    · simp only [markFacesLoop, setChecked_eq_some hi]
      exact heq
    · intro k
      rw [hget k]
      by_cases hk : k ∈ rest
      · rw [if_pos hk, if_pos (List.mem_cons_of_mem i hk)]
      · rw [if_neg hk]
        by_cases hki : k = i
        · subst hki
          rw [List.getElem?_set_self hi, if_pos (List.mem_cons_self k rest)]
        · rw [List.getElem?_set_ne (Ne.symm hki), if_neg (by simp [hki, hk])]

/-- Characterization of the per-face point marking loop. -/
theorem markPoints_spec : ∀ (js mv : List Nat), (∀ j ∈ js, j < mv.length) →
    ∃ mv', markPoints js mv = some mv' ∧ mv'.length = mv.length ∧
      ∀ p, mv'[p]? = if p ∈ js then some 1 else mv[p]? := by
  intro js
  induction js with
  | nil =>
    intro mv _
    exact ⟨mv, rfl, rfl, fun p => by simp⟩
  | cons j rest ih =>
    intro mv h
    have hj : j < mv.length := h j (List.mem_cons_self j rest)
    obtain ⟨mv', heq, hlen, hget⟩ := ih (mv.set j 1)
      (fun x hx => by rw [List.length_set]; exact h x (List.mem_cons_of_mem j hx))
    refine ⟨mv', ?_, by rw [hlen, List.length_set], ?_⟩
    · simp only [markPoints, setChecked_eq_some hj]
      exact heq
    · intro p
      rw [hget p]
      by_cases hp : p ∈ rest
      · rw [if_pos hp, if_pos (List.mem_cons_of_mem j hp)]
      · rw [if_neg hp]
        by_cases hpj : p = j
        · subst hpj
          rw [List.getElem?_set_self hj, if_pos (List.mem_cons_self p rest)]
        · rw [List.getElem?_set_ne (Ne.symm hpj), if_neg (by simp [hpj, hp])]

/-- Characterization of the per-section inner loop over a face-index
range: faces of the range below the face count get their byte marked and
their points marked; the break at `i >= num_faces` skips exactly the
range's tail (the range is ascending). -/
theorem markSectionFaces_spec (faces : List FaceRec) (nf np : Nat)
    (hfl : faces.length = nf)
    (hp : ∀ fr ∈ faces, ∀ j ∈ fr.verts, j < np) :
    ∀ (n a : Nat) (mv mf : List Nat), mv.length = np → mf.length = nf →
      ∃ mv' mf',
        markSectionFaces faces nf (List.range' a n) mv mf = some (mv', mf') ∧
        mv'.length = np ∧ mf'.length = nf ∧
        (∀ k, mf'[k]? =
          if rangeFace (List.range' a n) nf k then some 1 else mf[k]?) ∧
        (∀ p, mv'[p]? =
          if rangePoint faces (List.range' a n) nf p then some 1 else mv[p]?) := by
  intro n
  induction n with
  | zero =>
    intro a mv mf hmv hmf
    refine ⟨mv, mf, ?_, hmv, hmf, ?_, ?_⟩
    · rw [List.range'_zero]; rfl
    · intro k
      rw [if_neg (by simp [rangeFace_iff, List.range'_zero])]
    · intro p
      rw [if_neg (by simp [rangePoint_iff, List.range'_zero])]
  | succ n ih =>
    intro a mv mf hmv hmf
    rw [List.range'_succ]
    by_cases ha : nf ≤ a
    · refine ⟨mv, mf, ?_, hmv, hmf, ?_, ?_⟩
      · simp only [markSectionFaces, if_pos ha]
      · intro k
        rw [if_neg]
        intro hc
        obtain ⟨hmem, hlt⟩ := rangeFace_iff.mp hc
        rcases List.mem_cons.mp hmem with rfl | hmem'
        · omega
        · have := (List.mem_range'_1.mp hmem').1; omega
      · intro p
        rw [if_neg]
        intro hc
        obtain ⟨i, hmem, hlt, _⟩ := rangePoint_iff.mp hc
        rcases List.mem_cons.mp hmem with rfl | hmem'
        · omega
        · have := (List.mem_range'_1.mp hmem').1; omega
    · have ha' : a < nf := by omega
      have hmfa : a < mf.length := by omega
      have hfa : a < faces.length := by omega
      have hfr : faces[a]? = some faces[a] := List.getElem?_eq_getElem hfa
      obtain ⟨mv1, hmv1eq, hmv1len, hmv1get⟩ :=
        markPoints_spec (faces[a]).verts mv
          (fun j hj => by rw [hmv]; exact hp faces[a] (List.getElem_mem hfa) j hj)
      obtain ⟨mv', mf', heq, hlv, hlf, hgf, hgv⟩ :=
        ih (a + 1) mv1 (mf.set a 1) (by rw [hmv1len, hmv]) (by rw [List.length_set, hmf])
      refine ⟨mv', mf', ?_, hlv, hlf, ?_, ?_⟩
      · simp only [markSectionFaces, if_neg ha, setChecked_eq_some hmfa, hfr, hmv1eq]
        exact heq
      · intro k
        rw [hgf k]
        by_cases h1 : rangeFace (List.range' (a + 1) n) nf k = true
        · rw [if_pos h1, if_pos (rangeFace_iff.mpr
            ⟨List.mem_cons_of_mem a (rangeFace_iff.mp h1).1, (rangeFace_iff.mp h1).2⟩)]
        · rw [if_neg h1]
          by_cases hka : k = a
          · subst hka
            rw [List.getElem?_set_self hmfa,
              if_pos (rangeFace_iff.mpr ⟨List.mem_cons_self k _, ha'⟩)]
          · rw [List.getElem?_set_ne (Ne.symm hka), if_neg]
            intro hc
            obtain ⟨hmem, hlt⟩ := rangeFace_iff.mp hc
            rcases List.mem_cons.mp hmem with rfl | hmem'
            · exact hka rfl
            · exact h1 (rangeFace_iff.mpr ⟨hmem', hlt⟩)
      · intro p
        rw [hgv p]
        by_cases h1 : rangePoint faces (List.range' (a + 1) n) nf p = true
        · obtain ⟨i, hmem, hlt, hfp⟩ := rangePoint_iff.mp h1
          rw [if_pos h1, if_pos (rangePoint_iff.mpr
            ⟨i, List.mem_cons_of_mem a hmem, hlt, hfp⟩)]
        · rw [if_neg h1, hmv1get p]
          by_cases hpa : p ∈ (faces[a]).verts
          · rw [if_pos hpa, if_pos]
            exact rangePoint_iff.mpr ⟨a, List.mem_cons_self a _, ha',
              faceHasPoint_iff.mpr ⟨faces[a], hfr, hpa⟩⟩
          · rw [if_neg hpa, if_neg]
            intro hc
            obtain ⟨i, hmem, hlt, hfp⟩ := rangePoint_iff.mp hc
            rcases List.mem_cons.mp hmem with rfl | hmem'
            · obtain ⟨fr, hfr', hpfr⟩ := faceHasPoint_iff.mp hfp
              rw [hfr] at hfr'
              exact hpa (Option.some.inj hfr' ▸ hpfr)
            · exact h1 (rangePoint_iff.mpr ⟨i, hmem', hlt, hfp⟩)

/-- Characterization of the outer loop over a selection's listed
sections. -/
theorem markSections_spec (secs : List (Nat × Nat)) (faces : List FaceRec)
    (nf np : Nat) (hfl : faces.length = nf)
    (hp : ∀ fr ∈ faces, ∀ j ∈ fr.verts, j < np) :
    ∀ (sels : List Nat) (mv mf : List Nat), (∀ s ∈ sels, s < secs.length) →
      mv.length = np → mf.length = nf →
      ∃ mv' mf',
        markSections secs faces nf sels mv mf = some (mv', mf') ∧
        mv'.length = np ∧ mf'.length = nf ∧
        (∀ k, mf'[k]? = if coveredFaces secs sels nf k then some 1 else mf[k]?) ∧
        (∀ p, mv'[p]? =
          if coveredPoints secs faces sels nf p then some 1 else mv[p]?) := by
  intro sels
  induction sels with
  | nil =>
    intro mv mf _ hmv hmf
    refine ⟨mv, mf, rfl, hmv, hmf, ?_, ?_⟩
    · intro k; rw [if_neg (by simp [coveredFaces])]
    · intro p; rw [if_neg (by simp [coveredPoints])]
  | cons s rest ih =>
    intro mv mf hs hmv hmf
    have hslt : s < secs.length := hs s (List.mem_cons_self s rest)
    have hsec : secs[s]? = some secs[s] := List.getElem?_eq_getElem hslt
    obtain ⟨mv1, mf1, heq1, hl1v, hl1f, hg1f, hg1v⟩ :=
      markSectionFaces_spec faces nf np hfl hp ((secs[s]).2 - (secs[s]).1)
        (secs[s]).1 mv mf hmv hmf
    obtain ⟨mv', mf', heq, hlv, hlf, hgf, hgv⟩ :=
      ih mv1 mf1 (fun x hx => hs x (List.mem_cons_of_mem s hx)) hl1v hl1f
    refine ⟨mv', mf', ?_, hlv, hlf, ?_, ?_⟩
    · simp only [markSections, hsec, heq1]
      exact heq
    · intro k
      rw [hgf k]
      by_cases h1 : coveredFaces secs rest nf k = true
      · rw [if_pos h1, if_pos (by
          simp only [coveredFaces, List.any_cons] at h1 ⊢
          rw [h1, Bool.or_true])]
      · rw [if_neg h1, hg1f k]
        by_cases h2 : rangeFace (List.range' (secs[s]).1 ((secs[s]).2 - (secs[s]).1)) nf k = true
        · rw [if_pos h2, if_pos (by
            simp only [coveredFaces, List.any_cons, secFace, hsec, h2, Bool.true_or])]
        · rw [if_neg h2, if_neg (by
            simp only [coveredFaces, List.any_cons, secFace, hsec]
            simp only [coveredFaces] at h1
            simp [h1, h2])]
    · intro p
      rw [hgv p]
      by_cases h1 : coveredPoints secs faces rest nf p = true
      · rw [if_pos h1, if_pos (by
          simp only [coveredPoints, List.any_cons] at h1 ⊢
          rw [h1, Bool.or_true])]
      · rw [if_neg h1, hg1v p]
        by_cases h2 : rangePoint faces (List.range' (secs[s]).1 ((secs[s]).2 - (secs[s]).1)) nf p = true
        · rw [if_pos h2, if_pos (by
            simp only [coveredPoints, List.any_cons, secPoint, hsec, h2, Bool.true_or])]
        · rw [if_neg h2, if_neg (by
            simp only [coveredPoints, List.any_cons, secPoint, hsec]
            simp only [coveredPoints] at h1
            simp [h1, h2])]

/-- Characterization of the vertex-weight assignment loop: the last write
to a point wins; untouched points keep their previous byte. -/
theorem applyWeights_spec : ∀ (l : List (Nat × Nat)) (mv : List Nat),
    (∀ iw ∈ l, iw.1 < mv.length) →
    ∃ mv', applyWeights l mv = some mv' ∧ mv'.length = mv.length ∧
      ∀ p, mv'[p]? =
        match lastWeight l p with
        | some w => some w
        | none => mv[p]? := by
  intro l
  induction l with
  | nil =>
    intro mv _
    exact ⟨mv, rfl, rfl, fun p => by simp [lastWeight]⟩
  | cons iw rest ih =>
    obtain ⟨i, w⟩ := iw
    intro mv h
    have hi : i < mv.length := h (i, w) (List.mem_cons_self _ rest)
    obtain ⟨mv', heq, hlen, hget⟩ := ih (mv.set i w)
      (fun x hx => by rw [List.length_set]; exact h x (List.mem_cons_of_mem _ hx))
    refine ⟨mv', ?_, by rw [hlen, List.length_set], ?_⟩
    · simp only [applyWeights, setChecked_eq_some hi]
      exact heq
    · intro p
      rw [hget p]
      simp only [lastWeight]
      cases hlw : lastWeight rest p with
      | some w' => rfl
      | none =>
        by_cases hpi : p = i
        · subst hpi
          rw [if_pos rfl, List.getElem?_set_self hi]
        · rw [if_neg hpi, List.getElem?_set_ne (Ne.symm hpi)]

/-- A point with a recorded last weight was directly listed. -/
theorem lastWeight_some_mem : ∀ {l : List (Nat × Nat)} {p w : Nat},
    lastWeight l p = some w → ∃ q ∈ l, q.1 = p := by
  intro l
  induction l with
  | nil => intro p w h; cases h
  | cons iw rest ih =>
    obtain ⟨i, w0⟩ := iw
    intro p w h
    simp only [lastWeight] at h
    cases hlw : lastWeight rest p with
    | some w' =>
      obtain ⟨q, hq, hq1⟩ := ih hlw
      exact ⟨q, List.mem_cons_of_mem _ hq, hq1⟩
    | none =>
      rw [hlw] at h
      by_cases hpi : p = i
      · exact ⟨(i, w0), List.mem_cons_self _ _, hpi.symm⟩
      · rw [if_neg hpi] at h; cases h

/-- A face covered by a listed section is below the face count. -/
theorem coveredFaces_lt {secs : List (Nat × Nat)} {sels : List Nat} {nf k : Nat}
    (h : coveredFaces secs sels nf k = true) : k < nf := by
  simp only [coveredFaces, List.any_eq_true] at h
  obtain ⟨s, _, hsf⟩ := h
  unfold secFace at hsf
  split at hsf
  · exact (rangeFace_iff.mp hsf).2
  · cases hsf

/-- A point covered by a listed section is referenced by some decoded
face, hence below the point count whenever every face's points are. -/
theorem coveredPoints_lt {secs : List (Nat × Nat)} {faces : List FaceRec}
    {sels : List Nat} {nf np p : Nat}
    (hp : ∀ fr ∈ faces, ∀ j ∈ fr.verts, j < np)
    (h : coveredPoints secs faces sels nf p = true) : p < np := by
  simp only [coveredPoints, List.any_eq_true] at h
  obtain ⟨s, _, hsp⟩ := h
  unfold secPoint at hsp
  split at hsp
  · obtain ⟨i, _, _, hfp⟩ := rangePoint_iff.mp hsp
    obtain ⟨fr, hfr, hpfr⟩ := faceHasPoint_iff.mp hfp
    obtain ⟨hlt, hget⟩ := List.getElem?_eq_some_iff.mp hfr
    exact hp fr (hget ▸ List.getElem_mem hlt) p hpfr
  · cases hsp

/-- The central characterization: under the in-bounds conditions the
decoder's own loops satisfy, `expandSelection` succeeds and produces
exactly the declarative tag array `expandSelectionSpec`. -/
theorem expandSelection_eq_spec (np nf : Nat) (secs : List (Nat × Nat))
    (faces : List FaceRec) (sf ss sv sw : List Nat)
    (h1 : ∀ f ∈ sf, f < nf)
    (h2 : ∀ s ∈ ss, s < secs.length)
    (h3 : faces.length = nf)
    (h4 : ∀ fr ∈ faces, ∀ j ∈ fr.verts, j < np)
    (h5 : ∀ i ∈ sv, i < np)
    (h6 : sw.length = sv.length ∨ sw = []) :
    expandSelection np nf secs faces sf ss sv sw =
      some (expandSelectionSpec np nf secs faces sf ss sv sw) := by
  have hw : sv.length = (defaultWeights sv sw).length := by
    unfold defaultWeights
    by_cases h0 : sw.length = 0
    · rw [if_pos h0, List.length_replicate]
    · rw [if_neg h0]
      rcases h6 with h | h
      · exact h.symm
      · exact absurd (by rw [h]; rfl) h0
  obtain ⟨mf1, hmf1, hlen1, hget1⟩ := markFacesLoop_spec sf (List.replicate nf 0)
    (by intro f hf; rw [List.length_replicate]; exact h1 f hf)
  have hlen1' : mf1.length = nf := by rw [hlen1, List.length_replicate]
  obtain ⟨mv2, mf2, heq2, hlv2, hlf2, hgf2, hgv2⟩ :=
    markSections_spec secs faces nf np h3 h4 ss (List.replicate np 0) mf1 h2
      (List.length_replicate np 0) hlen1'
  obtain ⟨mv3, hmv3, hlen3, hget3⟩ := applyWeights_spec (sv.zip (defaultWeights sv sw)) mv2
    (by
      intro iw hiw
      obtain ⟨i, w⟩ := iw
      rw [hlv2]
      exact h5 i (List.of_mem_zip hiw).1)
  have hpoints : mv3 = (List.range np).map (fun p =>
      match lastWeight (sv.zip (defaultWeights sv sw)) p with
      | some w => w
      | none => if coveredPoints secs faces ss nf p then 1 else 0) := by
    apply List.ext_getElem?
    intro p
    rw [hget3 p, hgv2 p, List.getElem?_map]
    by_cases hplt : p < np
    · rw [List.getElem?_range hplt]
      simp only [Option.map_some']
      cases hlw : lastWeight (sv.zip (defaultWeights sv sw)) p with
      | some w => rfl
      | none =>
        by_cases hcov : coveredPoints secs faces ss nf p = true
        · simp [hcov]
        · simp [Bool.eq_false_iff.mpr hcov, hplt]
    · have hrange : (List.range np)[p]? = none :=
        List.getElem?_eq_none (by rw [List.length_range]; omega)
      rw [hrange]
      have hlw : lastWeight (sv.zip (defaultWeights sv sw)) p = none := by
        cases hlw : lastWeight (sv.zip (defaultWeights sv sw)) p with
        | none => rfl
        | some w =>
          obtain ⟨q, hq, hq1⟩ := lastWeight_some_mem hlw
          obtain ⟨i, w'⟩ := q
          have hmem : i ∈ sv := (List.of_mem_zip hq).1
          simp only at hq1
          subst hq1
          exact absurd (h5 i hmem) (by omega)
      have hcov : coveredPoints secs faces ss nf p = false :=
        Bool.eq_false_iff.mpr (fun hc => absurd (coveredPoints_lt h4 hc) (by omega))
      simp [hlw, hcov, hplt]
      omega
  have hfaces : mf2 = (List.range nf).map (fun k =>
      if sf.contains k || coveredFaces secs ss nf k then 1 else 0) := by
    apply List.ext_getElem?
    intro k
    rw [hgf2 k, hget1 k, List.getElem?_map]
    by_cases hklt : k < nf
    · rw [List.getElem?_range hklt]
      simp only [Option.map_some']
      by_cases hcov : coveredFaces secs ss nf k = true
      · simp [hcov]
      · have hcov' : coveredFaces secs ss nf k = false := Bool.eq_false_iff.mpr hcov
        by_cases hmem : k ∈ sf
        · have hc : sf.contains k = true := List.elem_iff.mpr hmem
          simp [hcov', hc, hmem]
        · have hc : sf.contains k = false :=
            Bool.eq_false_iff.mpr (fun h => hmem (List.elem_iff.mp h))
          simp [hcov', hc, hmem, hklt]
    · have hrange : (List.range nf)[k]? = none :=
        List.getElem?_eq_none (by rw [List.length_range]; omega)
      rw [hrange]
      have hcov : coveredFaces secs ss nf k = false :=
        Bool.eq_false_iff.mpr (fun hc => absurd (coveredFaces_lt hc) (by omega))
      have hmem : k ∉ sf := fun hm => absurd (h1 k hm) (by omega)
      simp [hcov, hmem, hklt]
      omega
  simp only [expandSelection, expandSelectionSpec]
  rw [if_pos hw]
  simp only [hmf1, heq2, hmv3, hpoints, hfaces]

theorem markFacesLoop_length : ∀ {sf mf mf' : List Nat},
    markFacesLoop sf mf = some mf' → mf'.length = mf.length := by
  intro sf
  induction sf with
  | nil =>
    intro mf mf' h
    injection h with h
    rw [← h]
  | cons i rest ih =>
    intro mf mf' h
    simp only [markFacesLoop] at h
    split at h
    · exact Option.noConfusion h
    · next mf1 hset => exact (ih h).trans (setChecked_length hset)

theorem markPoints_length : ∀ {js mv mv' : List Nat},
    markPoints js mv = some mv' → mv'.length = mv.length := by
  intro js
  induction js with
  | nil =>
    intro mv mv' h
    injection h with h
    rw [← h]
  | cons j rest ih =>
    intro mv mv' h
    simp only [markPoints] at h
    split at h
    · exact Option.noConfusion h
    · next mv1 hset => exact (ih h).trans (setChecked_length hset)

theorem markSectionFaces_length (faces : List FaceRec) (nf : Nat) :
    ∀ {idxs mv mf : List Nat} {mv' mf' : List Nat},
      markSectionFaces faces nf idxs mv mf = some (mv', mf') →
      mv'.length = mv.length ∧ mf'.length = mf.length := by
  intro idxs
  induction idxs with
  | nil =>
    intro mv mf mv' mf' h
    injection h with h
    injection h with h1 h2
    rw [← h1, ← h2]
    exact ⟨rfl, rfl⟩
  | cons i rest ih =>
    intro mv mf mv' mf' h
    simp only [markSectionFaces] at h
    split at h
    · injection h with h
      injection h with h1 h2
      rw [← h1, ← h2]
      exact ⟨rfl, rfl⟩
    · split at h
      · exact Option.noConfusion h
      · next mf1 hset =>
        split at h
        · exact Option.noConfusion h
        · next fr hfr =>
          split at h
          · exact Option.noConfusion h
          · next mv1 hmp =>
            obtain ⟨l1, l2⟩ := ih h
            exact ⟨l1.trans (markPoints_length hmp), l2.trans (setChecked_length hset)⟩

theorem markSections_length (secs : List (Nat × Nat)) (faces : List FaceRec) (nf : Nat) :
    ∀ {sels mv mf : List Nat} {mv' mf' : List Nat},
      markSections secs faces nf sels mv mf = some (mv', mf') →
      mv'.length = mv.length ∧ mf'.length = mf.length := by
  intro sels
  induction sels with
  | nil =>
    intro mv mf mv' mf' h
    injection h with h
    injection h with h1 h2
    rw [← h1, ← h2]
    exact ⟨rfl, rfl⟩
  | cons s rest ih =>
    intro mv mf mv' mf' h
    simp only [markSections] at h
    split at h
    · exact Option.noConfusion h
    · next sec hsec =>
      split at h
      · exact Option.noConfusion h
      · next mv1 mf1 hpr =>
        obtain ⟨l1, l2⟩ := ih h
        obtain ⟨l1', l2'⟩ := markSectionFaces_length faces nf hpr
        exact ⟨l1.trans l1', l2.trans l2'⟩

theorem applyWeights_length : ∀ {l : List (Nat × Nat)} {mv mv' : List Nat},
    applyWeights l mv = some mv' → mv'.length = mv.length := by
  intro l
  induction l with
  | nil =>
    intro mv mv' h
    injection h with h
    rw [← h]
  | cons iw rest ih =>
    obtain ⟨i, w⟩ := iw
    intro mv mv' h
    simp only [applyWeights] at h
    split at h
    · exact Option.noConfusion h
    · next mv1 hset => exact (ih h).trans (setChecked_length hset)

/-- C4: every tag array a selection expansion successfully inserts into
the LOD's tag map has length exactly `numPoints + numFaces` — the point
block followed by the face block. -/
theorem c4_tag_length (np nf : Nat) (secs : List (Nat × Nat)) (faces : List FaceRec)
    (sf ss sv sw l : List Nat)
    (h : expandSelection np nf secs faces sf ss sv sw = some l) :
    l.length = np + nf := by
  simp only [expandSelection] at h
  split at h
  · split at h
    · exact Option.noConfusion h
    · next mf1 hmf1 =>
      split at h
      · exact Option.noConfusion h
      · next mv2 mf2 hpr =>
        split at h
        · exact Option.noConfusion h
        · next mv3 haw =>
          injection h with h
          rw [← h, List.length_append]
          have e1 := markFacesLoop_length hmf1
          have e2 := markSections_length secs faces nf hpr
          have e3 := applyWeights_length haw
          rw [List.length_replicate] at e1
          rw [List.length_replicate] at e2
          rw [e3, e2.1, e2.2, e1]
  · exact Option.noConfusion h

/-- The spec's C3 fixture: faces `[{1,2,3,4},{5,6,7,8}]`. -/
def c3Faces : List FaceRec := [⟨[1, 2, 3, 4], 0, 0⟩, ⟨[5, 6, 7, 8], 0, 0⟩]

theorem c4_tag_length_witness :
    ([0, 1, 1, 1, 1, 1, 1, 1, 1, 1, 1] : List Nat).length = 9 + 2 :=
  c4_tag_length 9 2 [(0, 2)] c3Faces [] [0] [] []
    [0, 1, 1, 1, 1, 1, 1, 1, 1, 1, 1] (by decide)

/-- C3 counterexample: a selection directly listing face 0 (whose points
are 1 and 2) over a one-face LOD.  The decoder marks only the face byte
— the points of a directly-listed face are NOT marked — producing
`[0,0,0,1]`, while the claim's description (which marks every point
referenced by a directly-listed face) yields `[0,1,1,1]`. -/
theorem c3_counterexample :
    expandSelection 3 1 [] [⟨[1, 2], 0, 0⟩] [0] [] [] [] = some [0, 0, 0, 1] ∧
    expandSelectionClaimed 3 1 [] [⟨[1, 2], 0, 0⟩] [0] [] [] [] = [0, 1, 1, 1] ∧
    expandSelection 3 1 [] [⟨[1, 2], 0, 0⟩] [0] [] [] [] ≠
      some (expandSelectionClaimed 3 1 [] [⟨[1, 2], 0, 0⟩] [0] [] [] []) := by
  exact ⟨by decide, by decide, by decide⟩

/-- C3 amended: the expanded tag array defaults every entry to 0, sets
the face byte to 1 for every directly-listed face and for every face
inside a listed section's range, marks the point byte of every point
referenced by a face inside a listed section's range (directly-listed
faces do NOT mark their points), and finally overwrites each
directly-listed vertex's point byte with its supplied weight (last write
wins), as `expandSelectionSpec` states declaratively.  On the fixture —
a selection listing only section 0 over `sections=[(0,2)]` and
`faces=[{1,2,3,4},{5,6,7,8}]` — faces `{0,1}` are marked 1 and points
`{1,...,8}` get weight 1, all else 0. -/
theorem c3_selection_tags :
    (∀ (np nf : Nat) (secs : List (Nat × Nat)) (faces : List FaceRec)
      (sf ss sv sw : List Nat),
      (∀ f ∈ sf, f < nf) → (∀ s ∈ ss, s < secs.length) →
      faces.length = nf → (∀ fr ∈ faces, ∀ j ∈ fr.verts, j < np) →
      (∀ i ∈ sv, i < np) → (sw.length = sv.length ∨ sw = []) →
      expandSelection np nf secs faces sf ss sv sw =
        some (expandSelectionSpec np nf secs faces sf ss sv sw)) ∧
    expandSelection 9 2 [(0, 2)] c3Faces [] [0] [] [] =
      some [0, 1, 1, 1, 1, 1, 1, 1, 1, 1, 1] :=
  ⟨fun np nf secs faces sf ss sv sw ha hb hc hd he hf =>
    expandSelection_eq_spec np nf secs faces sf ss sv sw ha hb hc hd he hf,
   by decide⟩

theorem c3_selection_tags_witness :
    expandSelection 9 2 [(0, 2)] c3Faces [] [0] [] [] =
      some (expandSelectionSpec 9 2 [(0, 2)] c3Faces [] [0] [] []) :=
  c3_selection_tags.1 9 2 [(0, 2)] c3Faces [] [0] [] []
    (by decide) (by decide) (by decide) (by decide) (by decide) (Or.inr rfl)

/-- Clamping a section's upper bound to the face count does not change
which faces it covers. -/
theorem secFace_clamp (secs : List (Nat × Nat)) (nf k s : Nat) :
    secFace (secs.map fun sec => (sec.1, min sec.2 nf)) nf k s =
      secFace secs nf k s := by
  unfold secFace
  rw [List.getElem?_map]
  cases h : secs[s]? with
  | none => rfl
  | some sec =>
    simp only [Option.map_some']
    rw [Bool.eq_iff_iff]
    simp only [rangeFace_iff, List.mem_range'_1]
    omega

/-- Clamping a section's upper bound to the face count does not change
which points it references. -/
theorem secPoint_clamp (secs : List (Nat × Nat)) (faces : List FaceRec)
    (nf p s : Nat) :
    secPoint (secs.map fun sec => (sec.1, min sec.2 nf)) faces nf p s =
      secPoint secs faces nf p s := by
  unfold secPoint
  rw [List.getElem?_map]
  cases h : secs[s]? with
  | none => rfl
  | some sec =>
    simp only [Option.map_some']
    rw [Bool.eq_iff_iff]
    simp only [rangePoint_iff, List.mem_range'_1]
    constructor
    · rintro ⟨i, ⟨hi1, hi2⟩, hlt, hfp⟩
      exact ⟨i, ⟨hi1, by omega⟩, hlt, hfp⟩
    · rintro ⟨i, ⟨hi1, hi2⟩, hlt, hfp⟩
      exact ⟨i, ⟨hi1, by omega⟩, hlt, hfp⟩

/-- C10: when a selection lists a section whose face range `[from, to)`
extends beyond the LOD's declared face count, tag expansion processes
only the face indices below `numFaces` and skips the overhanging tail:
the expansion equals the expansion with every section's range clamped to
the face count, and it succeeds — no failure and no out-of-bounds tag
write (a panic-free run is exactly a `some` result in this embedding). -/
theorem c10_overhanging_section (np nf : Nat) (secs : List (Nat × Nat))
    (faces : List FaceRec) (sf ss sv sw : List Nat)
    (h1 : ∀ f ∈ sf, f < nf)
    (h2 : ∀ s ∈ ss, s < secs.length)
    (h3 : faces.length = nf)
    (h4 : ∀ fr ∈ faces, ∀ j ∈ fr.verts, j < np)
    (h5 : ∀ i ∈ sv, i < np)
    (h6 : sw.length = sv.length ∨ sw = []) :
    expandSelection np nf secs faces sf ss sv sw =
      expandSelection np nf (secs.map fun sec => (sec.1, min sec.2 nf))
        faces sf ss sv sw ∧
    ∃ l, expandSelection np nf secs faces sf ss sv sw = some l := by
  have e1 := expandSelection_eq_spec np nf secs faces sf ss sv sw h1 h2 h3 h4 h5 h6
  have e2 := expandSelection_eq_spec np nf
    (secs.map fun sec => (sec.1, min sec.2 nf)) faces sf ss sv sw h1
    (by intro s hs; rw [List.length_map]; exact h2 s hs) h3 h4 h5 h6
  refine ⟨?_, ⟨_, e1⟩⟩
  rw [e1, e2]
  have hcf : ∀ k, coveredFaces (secs.map fun sec => (sec.1, min sec.2 nf)) ss nf k =
      coveredFaces secs ss nf k := by
    intro k
    unfold coveredFaces
    exact congrArg ss.any (funext fun s => secFace_clamp secs nf k s)
  have hcp : ∀ p, coveredPoints (secs.map fun sec => (sec.1, min sec.2 nf)) faces ss nf p =
      coveredPoints secs faces ss nf p := by
    intro p
    unfold coveredPoints
    exact congrArg ss.any (funext fun s => secPoint_clamp secs faces nf p s)
  simp only [expandSelectionSpec, hcf, hcp]

theorem c10_overhanging_section_witness :
    expandSelection 9 2 [(0, 5)] c3Faces [] [0] [] [] =
      expandSelection 9 2 (([(0, 5)] : List (Nat × Nat)).map
        fun sec => (sec.1, min sec.2 2)) c3Faces [] [0] [] [] ∧
    ∃ l, expandSelection 9 2 [(0, 5)] c3Faces [] [0] [] [] = some l :=
  c10_overhanging_section 9 2 [(0, 5)] c3Faces [] [0] [] []
    (by decide) (by decide) (by decide) (by decide) (by decide) (Or.inr rfl)

end Crowbar
